import Mathlib

/-!
# go-analysis: the three-stage pipeline of `solution.go`

Shallow embedding of `Stage1` (generator), `Stage2` (transformer), `Stage3`
(reducer) and `main`.

* Go `int` is the 64-bit two's complement integer: values are `Int`, and every
  `+`, `*`, `+=`, `++` of the source is followed by `wrapInt`.
* Go `%` truncates towards zero: it is `Int.tmod`.
* A channel with one producer and one consumer is the list of actions its
  producer performs on it (`send v` / `close`), in program order; a consumer's
  `for x := range ch` reads the values sent before the `close`.
* `for i := 1; i <= L; i++` carries fuel: `none` means the fuel ran out
  before the loop condition failed.
-/

namespace Pipeline

/-! ## Go `int` arithmetic -/

/-- Smallest Go `int` (64-bit): `-2^63`. -/
def minInt : Int := -9223372036854775808

/-- Largest Go `int` (64-bit): `2^63 - 1`. -/
def maxInt : Int := 9223372036854775807

/-- Membership in the range of Go `int`. -/
def inInt (x : Int) : Prop := minInt ≤ x ∧ x ≤ maxInt

instance (x : Int) : Decidable (inInt x) := by
  unfold inInt; exact inferInstance

/-- Reduction of a mathematical integer to the Go `int` with the same low 64 bits. -/
def wrapInt (x : Int) : Int :=
  (x + 9223372036854775808) % 18446744073709551616 - 9223372036854775808

/-- Go `a + b` on `int`. -/
def intAdd (a b : Int) : Int := wrapInt (a + b)

/-- Go `a * b` on `int`. -/
def intMul (a b : Int) : Int := wrapInt (a * b)

/-- Go `a % b` on `int` (truncated remainder, sign of the dividend);
    no overflow is possible for the divisors 2 and 3 used by the source. -/
def intRem (a b : Int) : Int := Int.tmod a b

/-! ## Channels -/

/-- What a producer does on a channel. -/
inductive Action where
  | send (v : Int)
  | close
  deriving DecidableEq, Repr

/-- The values a `for x := range ch` loop receives: those sent before the close. -/
def received : List Action → List Int
  | [] => []
  | Action.send v :: rest => v :: received rest
  | Action.close :: _ => []

/-- Number of `close` actions in a channel history. -/
def closeCount : List Action → Nat
  | [] => 0
  | Action.send _ :: rest => closeCount rest
  | Action.close :: rest => closeCount rest + 1

/-! ## The stages -/

/-- The loop of `Stage1` from loop index `i`, with the bound `L` in place of
    the constant `1000000000`; the result is what is done on `jobs` from
    there on, the final `close(jobs)` included.

    ```go
    for i := 1; i <= L; i++ {
        if i%2 == 0 { i += 99 }
        jobs <- i
    }
    close(jobs)
    ``` -/
def Stage1Loop (L : Int) : Nat → Int → Option (List Action)
  | 0, _ => none
  | fuel + 1, i =>
    if i ≤ L then
      let j := if intRem i 2 = 0 then intAdd i 99 else i
      (Stage1Loop L fuel (intAdd j 1)).map (fun rest => Action.send j :: rest)
    else
      some [Action.close]

/-- `Stage1` with the bound `L` in place of the constant: the loop starts at `i := 1`. -/
def Stage1With (L : Int) (fuel : Nat) : Option (List Action) :=
  Stage1Loop L fuel 1

/-- `Stage1(jobs)`: the history of `jobs`. -/
def Stage1 (fuel : Nat) : Option (List Action) :=
  Stage1With 1000000000 fuel

/-- `Stage2(jobs, results)`: the history of `results`, given the values
    received from `jobs`. The `switch` has no `default`: a remainder other
    than 0, 1, 2 sends nothing. -/
def Stage2 : List Int → List Action
  | [] => [Action.close]
  | job :: rest =>
    if intRem job 3 = 0 then Action.send (intMul job 1) :: Stage2 rest
    else if intRem job 3 = 1 then Action.send (intMul job 2) :: Stage2 rest
    else if intRem job 3 = 2 then Action.send (intMul job 3) :: Stage2 rest
    else Stage2 rest

/-- The `for result := range results { total += result }` loop of `Stage3`
    from the running `total`. -/
def Stage3Loop (total : Int) : List Int → Int
  | [] => total
  | result :: rest => Stage3Loop (intAdd total result) rest

/-- `Stage3(results, sum)`: the history of `sum`, given the values received
    from `results`; `var total int` starts at zero, `sum` is never closed. -/
def Stage3 (results : List Int) : List Action :=
  [Action.send (Stage3Loop 0 results)]

/-- `main` with the bound `L` in place of the constant: the value
    `fmt.Println(<-sum)` prints, the first one received from `sum`. -/
def mainWith (L : Int) (fuel : Nat) : Option Int :=
  (Stage1With L fuel).bind fun jobs =>
    (received (Stage3 (received (Stage2 (received jobs))))).head?

/-- `main()`: the number printed. -/
def main (fuel : Nat) : Option Int :=
  mainWith 1000000000 fuel

/-! ## Reference quantities used in the statements -/

/-- The mapping of the transformer over unbounded integers, as the
    specification words it: item × (1 + remainder). -/
def mappedSpec (n : Int) : Int := n * (1 + Int.tmod n 3)

/-- The values `100·m + 1` for `m = 0, …, k - 1`. -/
def hundredsPlusOne (k : Nat) : List Int :=
  (List.range k).map (fun (m : Nat) => 100 * (m : Int) + 1)

/-- Number of values `Stage1` sends for the bound `L` (when the index does not overflow). -/
def emitCount (L : Int) : Nat :=
  if 1 ≤ L then ((L + 98) / 100).toNat + 1 else 0

/-- The history of `jobs` in production. -/
def productionJobs : List Action :=
  (hundredsPlusOne 10000001).map Action.send ++ [Action.close]

/-- The sum, over unbounded integers, of the mapped values of `100·m + 1`, `m < n`. -/
def mappedSum (n : Nat) : Int := ((hundredsPlusOne n).map mappedSpec).sum

/-- Close happens exactly once, as the last action, and nothing is sent after it. -/
def closedOnceAtEnd (t : List Action) : Prop :=
  closeCount t = 1 ∧ t.getLast? = some Action.close ∧
    ∀ pre post, t = pre ++ Action.close :: post → post = []

/-! ## Go `int` arithmetic: basic facts -/

theorem wrapInt_of_inInt {x : Int} (h : inInt x) : wrapInt x = x := by
  unfold inInt minInt maxInt at h
  unfold wrapInt
  omega

theorem inInt_wrapInt (x : Int) : inInt (wrapInt x) := by
  unfold inInt minInt maxInt wrapInt
  omega

theorem wrapInt_add_left (a b : Int) : wrapInt (wrapInt a + b) = wrapInt (a + b) := by
  unfold wrapInt
  omega

theorem intRem_of_nonneg {a b : Int} (ha : 0 ≤ a) (hb : 0 ≤ b) : intRem a b = a % b :=
  Int.tmod_eq_emod ha hb

/-! ## The reducer loop -/

theorem Stage3Loop_eq (results : List Int) :
    ∀ total, inInt total → Stage3Loop total results = wrapInt (total + results.sum) := by
  induction results with
  | nil =>
    intro total h
    simp [Stage3Loop, wrapInt_of_inInt h]
  | cons r rest ih =>
    intro total _
    have h := ih (intAdd total r) (inInt_wrapInt _)
    rw [Stage3Loop, h, intAdd, wrapInt_add_left, List.sum_cons, add_assoc]

theorem Stage3Loop_zero (results : List Int) :
    Stage3Loop 0 results = wrapInt results.sum := by
  rw [Stage3Loop_eq results 0 (by decide), zero_add]

theorem Stage3_eq (results : List Int) :
    Stage3 results = [Action.send (wrapInt results.sum)] := by
  unfold Stage3
  rw [Stage3Loop_zero]

/-! ## The generator loop -/

theorem Stage1Loop_odd_step (L : Int) (fuel : Nat) (i : Int)
    (hL : i ≤ L) (hi : 0 ≤ i) (hodd : i % 2 = 1) (hmax : i + 1 ≤ maxInt) :
    Stage1Loop L (fuel + 1) i =
      (Stage1Loop L fuel (i + 1)).map (fun rest => Action.send i :: rest) := by
  have hrem : intRem i 2 = 1 := by rw [intRem_of_nonneg hi (by decide)]; exact hodd
  have hw : intAdd i 1 = i + 1 := by
    apply wrapInt_of_inInt
    unfold inInt minInt; unfold maxInt at hmax ⊢; omega
  simp [Stage1Loop, hL, hrem, hw]

theorem Stage1Loop_even_step (L : Int) (fuel : Nat) (i : Int)
    (hL : i ≤ L) (hi : 0 ≤ i) (heven : i % 2 = 0) (hmax : i + 100 ≤ maxInt) :
    Stage1Loop L (fuel + 1) i =
      (Stage1Loop L fuel (i + 100)).map (fun rest => Action.send (i + 99) :: rest) := by
  have hrem : intRem i 2 = 0 := by rw [intRem_of_nonneg hi (by decide)]; exact heven
  have hw : intAdd i 99 = i + 99 := by
    apply wrapInt_of_inInt
    unfold inInt minInt; unfold maxInt at hmax ⊢; omega
  have hw2 : intAdd (i + 99) 1 = i + 100 := by
    unfold intAdd
    rw [show i + 99 + 1 = i + 100 by ring]
    apply wrapInt_of_inInt
    unfold inInt minInt; unfold maxInt at hmax ⊢; omega
  simp [Stage1Loop, hL, hrem, hw, hw2]

theorem Stage1Loop_exit (L : Int) (fuel : Nat) (i : Int) (hL : L < i) :
    Stage1Loop L (fuel + 1) i = some [Action.close] := by
  have : ¬ i ≤ L := by omega
  simp [Stage1Loop, this]

/-- From the even index `100·k + 2`, with `d` indices of that form left up to `L`,
    the loop sends `100·(k+1)+1, …, 100·(k+d)+1` and closes. -/
theorem Stage1Loop_even (L : Int) :
    ∀ (d : Nat) (k : Int) (fuel : Nat), 0 ≤ k → d < fuel →
      100 * (k + d) + 2 ≤ maxInt → L < 100 * (k + d) + 2 →
      (0 < d → 100 * (k + d - 1) + 2 ≤ L) →
      Stage1Loop L fuel (100 * k + 2) =
        some ((List.range d).map (fun (e : Nat) => Action.send (100 * (k + 1 + (e : Int)) + 1))
          ++ [Action.close]) := by
  intro d
  induction d with
  | zero =>
    intro k fuel _ hf _ hlt _
    obtain ⟨f, rfl⟩ : ∃ f, fuel = f + 1 := ⟨fuel - 1, by omega⟩
    rw [Stage1Loop_exit]
    · simp
    · simpa using hlt
  | succ d ih =>
    intro k fuel hk hf hmax hlt hle
    obtain ⟨f, rfl⟩ : ∃ f, fuel = f + 1 := ⟨fuel - 1, by omega⟩
    have hle2 := hle (by omega)
    push_cast at hmax hlt hle2
    unfold maxInt at hmax
    rw [Stage1Loop_even_step L f (100 * k + 2) (by omega) (by omega) (by omega)
      (by unfold maxInt; omega)]
    have h := ih (k + 1) f (by omega) (by omega) (by unfold maxInt; omega) (by omega)
      (by intro _; omega)
    rw [show 100 * k + 2 + 100 = 100 * (k + 1) + 2 by ring, h]
    rw [List.range_succ_eq_map]
    simp only [Option.map_some', List.map_cons, List.map_map, List.cons_append]
    congr 2
    · congr 1; push_cast; ring
    · congr 1
      apply List.map_congr_left
      intro e _
      simp only [Function.comp]
      congr 1; push_cast; ring

/-- Closed form of the generator for every bound whose last index does not
    overflow: it sends `100·m + 1` for `m < emitCount L`, then closes. -/
theorem Stage1With_eq (L : Int) (fuel : Nat) (hL : L ≤ maxInt - 6)
    (hfuel : emitCount L + 1 ≤ fuel) :
    Stage1With L fuel =
      some ((hundredsPlusOne (emitCount L)).map Action.send ++ [Action.close]) := by
  unfold maxInt at hL
  obtain ⟨f, rfl⟩ : ∃ f, fuel = f + 1 := ⟨fuel - 1, by omega⟩
  unfold Stage1With
  by_cases h1 : 1 ≤ L
  · have hc : emitCount L = ((L + 98) / 100).toNat + 1 := by simp [emitCount, h1]
    have hK : (((L + 98) / 100).toNat : Int) = (L + 98) / 100 :=
      Int.toNat_of_nonneg (by omega)
    rw [hc] at hfuel ⊢
    rw [Stage1Loop_odd_step L f 1 h1 (by decide) (by decide) (by decide)]
    have h := Stage1Loop_even L ((L + 98) / 100).toNat 0 f (le_refl 0) (by omega)
      (by rw [hK]; unfold maxInt; omega) (by rw [hK]; omega) (by intro _; rw [hK]; omega)
    rw [show (1 : Int) + 1 = 100 * 0 + 2 by norm_num, h]
    unfold hundredsPlusOne
    rw [List.range_succ_eq_map]
    simp only [Option.map_some', List.map_cons, List.map_map, List.cons_append]
    congr 2
    congr 1
    apply List.map_congr_left
    intro e _
    simp only [Function.comp]
    congr 1; push_cast; ring
  · have hc : emitCount L = 0 := by simp [emitCount, h1]
    rw [hc, Stage1Loop_exit L f 1 (by omega)]
    simp [hundredsPlusOne]

theorem emitCount_production : emitCount 1000000000 = 10000001 := by
  unfold emitCount
  rw [if_pos (by decide)]
  have h : ((1000000000 : Int) + 98) / 100 = ((10000000 : Nat) : Int) := by norm_num
  rw [h, Int.toNat_ofNat]

/-- Closed form of the production generator. -/
theorem Stage1_eq (fuel : Nat) (hfuel : 10000002 ≤ fuel) :
    Stage1 fuel = some ((hundredsPlusOne 10000001).map Action.send ++ [Action.close]) := by
  have h := Stage1With_eq 1000000000 fuel (by decide) (by rw [emitCount_production]; exact hfuel)
  rw [emitCount_production] at h
  exact h

/-! ## Channel histories of the form "sends, then close" -/

theorem received_sends (vs : List Int) :
    received (vs.map Action.send ++ [Action.close]) = vs := by
  induction vs with
  | nil => rfl
  | cons v vs ih => simp [received, ih]

theorem closeCount_sends (vs : List Int) :
    closeCount (vs.map Action.send ++ [Action.close]) = 1 := by
  induction vs with
  | nil => rfl
  | cons v vs ih => simp [closeCount, ih]

theorem nothing_after_close (vs : List Int) :
    ∀ pre post, vs.map Action.send ++ [Action.close] = pre ++ Action.close :: post →
      post = [] := by
  induction vs with
  | nil =>
    intro pre post h
    cases pre with
    | nil => simpa using h.symm
    | cons a pre => simp at h
  | cons v vs ih =>
    intro pre post h
    cases pre with
    | nil => simp at h
    | cons a pre =>
      simp only [List.map_cons, List.cons_append, List.cons.injEq] at h
      exact ih pre post h.2

theorem closedOnceAtEnd_sends (vs : List Int) :
    closedOnceAtEnd (vs.map Action.send ++ [Action.close]) :=
  ⟨closeCount_sends vs, List.getLast?_concat _, nothing_after_close vs⟩

/-! ## The transformer -/

/-- Whatever it receives, `Stage2` sends some values and then closes. -/
theorem Stage2_shape (jobs : List Int) :
    ∃ vs : List Int, Stage2 jobs = vs.map Action.send ++ [Action.close] := by
  induction jobs with
  | nil => exact ⟨[], rfl⟩
  | cons job rest ih =>
    obtain ⟨vs, hvs⟩ := ih
    unfold Stage2
    split
    · exact ⟨intMul job 1 :: vs, by simp [hvs]⟩
    · split
      · exact ⟨intMul job 2 :: vs, by simp [hvs]⟩
      · split
        · exact ⟨intMul job 3 :: vs, by simp [hvs]⟩
        · exact ⟨vs, hvs⟩

/-- What `Stage2` does on a stream is what it sends for a first part, followed
    by what it does on the rest. -/
theorem Stage2_append (pre rest : List Int) :
    Stage2 (pre ++ rest) = (received (Stage2 pre)).map Action.send ++ Stage2 rest := by
  induction pre with
  | nil => rfl
  | cons job pre ih =>
    rw [List.cons_append]
    by_cases h0 : intRem job 3 = 0
    · simp [Stage2, h0, received, ih]
    · by_cases h1 : intRem job 3 = 1
      · simp [Stage2, h0, h1, received, ih]
      · by_cases h2 : intRem job 3 = 2
        · simp [Stage2, h0, h1, h2, received, ih]
        · simp [Stage2, h0, h1, h2, ih]

/-- One step of `Stage2` on an item whose remainder is 0, 1 or 2. -/
theorem Stage2_cons_of_rem (job : Int) (rest : List Int)
    (h : intRem job 3 = 0 ∨ intRem job 3 = 1 ∨ intRem job 3 = 2) :
    Stage2 (job :: rest) = Action.send (wrapInt (mappedSpec job)) :: Stage2 rest := by
  unfold mappedSpec
  unfold intRem at h
  rcases h with h | h | h <;> simp [Stage2, intRem, intMul, h]

theorem Stage2_of_rem (jobs : List Int)
    (h : ∀ v ∈ jobs, intRem v 3 = 0 ∨ intRem v 3 = 1 ∨ intRem v 3 = 2) :
    Stage2 jobs =
      (jobs.map (fun v => wrapInt (mappedSpec v))).map Action.send ++ [Action.close] := by
  induction jobs with
  | nil => rfl
  | cons job rest ih =>
    rw [Stage2_cons_of_rem job rest (h job (List.mem_cons_self _ _)),
      ih (fun v hv => h v (List.mem_cons_of_mem _ hv))]
    simp

theorem intRem_three_of_nonneg {v : Int} (hv : 0 ≤ v) :
    intRem v 3 = 0 ∨ intRem v 3 = 1 ∨ intRem v 3 = 2 := by
  rw [intRem_of_nonneg hv (by decide)]
  omega

theorem mem_hundredsPlusOne {k : Nat} {v : Int} (h : v ∈ hundredsPlusOne k) :
    ∃ m : Nat, m < k ∧ v = 100 * (m : Int) + 1 := by
  unfold hundredsPlusOne at h
  rw [List.mem_map] at h
  obtain ⟨m, hm, rfl⟩ := h
  exact ⟨m, List.mem_range.mp hm, rfl⟩

/-! ## More fuel never changes a result -/

theorem Stage1Loop_mono (L : Int) :
    ∀ (fuel : Nat) (i : Int) (t : List Action), Stage1Loop L fuel i = some t →
      ∀ k, Stage1Loop L (fuel + k) i = some t := by
  intro fuel
  induction fuel with
  | zero => intro i t h; simp [Stage1Loop] at h
  | succ fuel ih =>
    intro i t h k
    rw [show fuel + 1 + k = (fuel + k) + 1 by omega]
    unfold Stage1Loop at h ⊢
    by_cases hi : i ≤ L
    · simp only [hi, if_true] at h ⊢
      rw [Option.map_eq_some'] at h
      obtain ⟨r, hr, hrt⟩ := h
      rw [ih _ r hr k]
      simp [hrt]
    · simp only [hi, if_false] at h ⊢
      exact h

/-- Whatever the fuel, a finished run of the generator is the closed form. -/
theorem Stage1With_unique (L : Int) (fuel : Nat) (jobs : List Action)
    (hL : L ≤ maxInt - 6) (h : Stage1With L fuel = some jobs) :
    jobs = (hundredsPlusOne (emitCount L)).map Action.send ++ [Action.close] := by
  have h1 := Stage1Loop_mono L fuel 1 jobs h (emitCount L + 1)
  have h2 := Stage1With_eq L (fuel + (emitCount L + 1)) hL (by omega)
  unfold Stage1With at h2
  rw [h1] at h2
  exact Option.some.inj h2

/-! ## Facts about the values `100·m + 1` -/

theorem mem_hundredsPlusOne_iff (k : Nat) (v : Int) :
    v ∈ hundredsPlusOne k ↔ ∃ m : Nat, m < k ∧ v = 100 * (m : Int) + 1 := by
  constructor
  · exact mem_hundredsPlusOne
  · rintro ⟨m, hm, rfl⟩
    unfold hundredsPlusOne
    exact List.mem_map.mpr ⟨m, List.mem_range.mpr hm, rfl⟩

theorem length_hundredsPlusOne (k : Nat) : (hundredsPlusOne k).length = k := by
  simp [hundredsPlusOne]

theorem pairwise_hundredsPlusOne (k : Nat) : (hundredsPlusOne k).Pairwise (· < ·) := by
  unfold hundredsPlusOne
  rw [List.pairwise_map]
  exact (List.pairwise_lt_range k).imp (by intro a b hab; omega)

theorem getLast?_hundredsPlusOne (k : Nat) :
    (hundredsPlusOne (k + 1)).getLast? = some (100 * (k : Int) + 1) := by
  unfold hundredsPlusOne
  rw [List.getLast?_map, List.getLast?_range]
  simp

/-! ## The mapped values and their sum -/

theorem mappedSpec_of_mod (v r : Int) (hv : 0 ≤ v) (hr : v % 3 = r) :
    mappedSpec v = v * (1 + r) := by
  unfold mappedSpec
  rw [Int.tmod_eq_emod hv (by decide), hr]

theorem mappedSpec_bounds {v : Int} (hv : 0 ≤ v) :
    0 ≤ mappedSpec v ∧ mappedSpec v ≤ 3 * v := by
  have h : v % 3 = 0 ∨ v % 3 = 1 ∨ v % 3 = 2 := by omega
  rcases h with h | h | h <;> rw [mappedSpec_of_mod v _ hv h] <;> constructor <;> linarith

theorem hundredsPlusOne_succ (n : Nat) :
    hundredsPlusOne (n + 1) = hundredsPlusOne n ++ [100 * (n : Int) + 1] := by
  simp [hundredsPlusOne, List.range_succ]

theorem mappedSum_succ (n : Nat) :
    mappedSum (n + 1) = mappedSum n + mappedSpec (100 * (n : Int) + 1) := by
  simp [mappedSum, hundredsPlusOne_succ]

theorem mappedSum_three_step (k : Nat) :
    mappedSum (3 * k + 3) = mappedSum (3 * k) + (1800 * (k : Int) + 506) := by
  have h0 : mappedSpec (100 * ((3 * k : Nat) : Int) + 1) = 600 * (k : Int) + 2 := by
    rw [mappedSpec_of_mod _ 1 (by omega) (by omega)]; push_cast; ring
  have h1 : mappedSpec (100 * ((3 * k + 1 : Nat) : Int) + 1) = 900 * (k : Int) + 303 := by
    rw [mappedSpec_of_mod _ 2 (by omega) (by omega)]; push_cast; ring
  have h2 : mappedSpec (100 * ((3 * k + 2 : Nat) : Int) + 1) = 300 * (k : Int) + 201 := by
    rw [mappedSpec_of_mod _ 0 (by omega) (by omega)]; push_cast; ring
  rw [show 3 * k + 3 = 3 * k + 2 + 1 by omega, mappedSum_succ, h2,
    show 3 * k + 2 = 3 * k + 1 + 1 by omega, mappedSum_succ, h1, mappedSum_succ, h0]
  ring

theorem mappedSum_three (k : Nat) :
    mappedSum (3 * k) = 900 * (k : Int) ^ 2 - 394 * (k : Int) := by
  induction k with
  | zero => simp [mappedSum, hundredsPlusOne]
  | succ k ih =>
    rw [show 3 * (k + 1) = 3 * k + 3 by omega, mappedSum_three_step, ih]
    push_cast
    ring

theorem mappedSum_three_add_two (k : Nat) :
    mappedSum (3 * k + 2) =
      900 * (k : Int) ^ 2 - 394 * (k : Int) + (600 * (k : Int) + 2) + (900 * (k : Int) + 303) := by
  have h0 : mappedSpec (100 * ((3 * k : Nat) : Int) + 1) = 600 * (k : Int) + 2 := by
    rw [mappedSpec_of_mod _ 1 (by omega) (by omega)]; push_cast; ring
  have h1 : mappedSpec (100 * ((3 * k + 1 : Nat) : Int) + 1) = 900 * (k : Int) + 303 := by
    rw [mappedSpec_of_mod _ 2 (by omega) (by omega)]; push_cast; ring
  rw [show 3 * k + 2 = 3 * k + 1 + 1 by omega, mappedSum_succ, h1, mappedSum_succ, h0,
    mappedSum_three]

theorem mappedSum_production : mappedSum 10000001 = 10000001686666703 := by
  have h := mappedSum_three_add_two 3333333
  have e : 3 * 3333333 + 2 = 10000001 := by norm_num
  rw [e] at h
  rw [h]
  norm_num

theorem sum_take_bounds (l : List Int) (hl : ∀ x ∈ l, 0 ≤ x) (n : Nat) :
    0 ≤ (l.take n).sum ∧ (l.take n).sum ≤ l.sum := by
  have h1 : 0 ≤ (l.take n).sum :=
    List.sum_nonneg (fun x hx => hl x (List.mem_of_mem_take hx))
  have h2 : 0 ≤ (l.drop n).sum :=
    List.sum_nonneg (fun x hx => hl x (List.mem_of_mem_drop hx))
  have h3 : (l.take n).sum + (l.drop n).sum = l.sum := by
    rw [← List.sum_append, List.take_append_drop]
  exact ⟨h1, by linarith⟩

/-- On non-negative items `Stage2` publishes one value per item. -/
theorem Stage2_of_nonneg (jobs : List Int) (h : ∀ v ∈ jobs, 0 ≤ v) :
    Stage2 jobs =
      (jobs.map (fun v => wrapInt (mappedSpec v))).map Action.send ++ [Action.close] :=
  Stage2_of_rem jobs (fun v hv => intRem_three_of_nonneg (h v hv))

/-- When no product overflows, `Stage2` publishes the exact products. -/
theorem Stage2_exact (jobs : List Int) (h : ∀ v ∈ jobs, 0 ≤ v ∧ 3 * v ≤ maxInt) :
    received (Stage2 jobs) = jobs.map mappedSpec := by
  rw [Stage2_of_nonneg jobs (fun v hv => (h v hv).1), received_sends]
  apply List.map_congr_left
  intro v hv
  have hb := mappedSpec_bounds (h v hv).1
  have hm := (h v hv).2
  apply wrapInt_of_inInt
  unfold inInt minInt
  unfold maxInt at hm ⊢
  constructor <;> linarith [hb.1, hb.2]

/-! ## Bounds for which the generator never stops -/

theorem intRem_two_of_even {i : Int} (h : i % 2 = 0) : intRem i 2 = 0 :=
  Int.tmod_eq_zero_of_dvd (Int.dvd_of_emod_eq_zero h)

/-- With a bound of `maxInt - 1` or more, the loop condition `i <= L` holds at
    every test: the index is 1 or even, and every even `int` is at most
    `maxInt - 1`. -/
theorem Stage1Loop_never (L : Int) (hL : maxInt - 1 ≤ L) :
    ∀ (fuel : Nat) (i : Int), inInt i → (i = 1 ∨ i % 2 = 0) → Stage1Loop L fuel i = none := by
  intro fuel
  induction fuel with
  | zero => intro i _ _; rfl
  | succ fuel ih =>
    intro i hi hp
    have hle : i ≤ L := by
      unfold inInt minInt maxInt at hi
      unfold maxInt at hL
      omega
    unfold Stage1Loop
    rw [if_pos hle]
    rcases hp with rfl | hp
    · have h1 : ¬ intRem 1 2 = 0 := by decide
      simp only [h1, if_false]
      rw [ih (intAdd 1 1) (inInt_wrapInt _) (Or.inr (by decide))]
      rfl
    · simp only [intRem_two_of_even hp, if_true]
      have hev : intAdd (intAdd i 99) 1 % 2 = 0 := by
        unfold intAdd wrapInt
        omega
      rw [ih (intAdd (intAdd i 99) 1) (inInt_wrapInt _) (Or.inr hev)]
      rfl

theorem Stage1With_never (L : Int) (hL : maxInt - 1 ≤ L) :
    ¬ ∃ fuel jobs, Stage1With L fuel = some jobs := by
  rintro ⟨fuel, jobs, h⟩
  unfold Stage1With at h
  rw [Stage1Loop_never L hL fuel 1 (by decide) (Or.inl rfl)] at h
  exact Option.noConfusion h

/-- Every emitted value is positive and at most `L + 99`. -/
theorem hundredsPlusOne_emit_bounds (L : Int) (v : Int)
    (hv : v ∈ hundredsPlusOne (emitCount L)) : 0 ≤ v ∧ (v ≤ 1 ∨ v ≤ L + 99) := by
  obtain ⟨m, hm, rfl⟩ := mem_hundredsPlusOne hv
  unfold emitCount at hm
  by_cases h1 : 1 ≤ L
  · rw [if_pos h1] at hm
    have hK : (((L + 98) / 100).toNat : Int) = (L + 98) / 100 :=
      Int.toNat_of_nonneg (by omega)
    omega
  · rw [if_neg h1] at hm
    omega

/-! ## The claims -/

/-- C1 (amended): for every integer `n` received by `Stage2` whose remainder
    `n % 3` is 0, 1 or 2, at any position of the stream (after any items `pre`,
    before any items `post`), `Stage2` publishes exactly one value for `n`,
    between what it publishes for `pre` and what it does for `post`: the
    product `n × (1 + n % 3)` reduced to a signed 64-bit `int`; it is
    `n × (1 + n % 3)` itself whenever that product fits a signed 64-bit `int`. -/
theorem Stage2_maps_by_remainder (pre post : List Int) (n : Int)
    (h : intRem n 3 = 0 ∨ intRem n 3 = 1 ∨ intRem n 3 = 2) :
    Stage2 (pre ++ n :: post) =
      (received (Stage2 pre)).map Action.send ++
        Action.send (wrapInt (n * (1 + intRem n 3))) :: Stage2 post ∧
    (inInt (n * (1 + intRem n 3)) →
      Stage2 (pre ++ n :: post) =
        (received (Stage2 pre)).map Action.send ++
          Action.send (n * (1 + intRem n 3)) :: Stage2 post) := by
  have h1 : Stage2 (pre ++ n :: post) =
      (received (Stage2 pre)).map Action.send ++
        Action.send (wrapInt (n * (1 + intRem n 3))) :: Stage2 post := by
    rw [Stage2_append, Stage2_cons_of_rem n post h]
    rfl
  refine ⟨h1, fun hr => ?_⟩
  rw [h1, wrapInt_of_inInt hr]

/-- C1, at `n = 5` (remainder 2) received after `-1, 4` and before `7`:
    `Stage2` publishes `8` for 4, then `15 = 5 × 3` for 5, then goes on with 7. -/
theorem Stage2_maps_by_remainder_witness :
    (intRem 5 3 = 0 ∨ intRem 5 3 = 1 ∨ intRem 5 3 = 2) ∧
    inInt (5 * (1 + intRem 5 3)) ∧
    Stage2 ([-1, 4] ++ 5 :: [7]) =
      (received (Stage2 [-1, 4])).map Action.send ++
        Action.send (5 * (1 + intRem 5 3)) :: Stage2 [7] ∧
    Stage2 [-1, 4, 5, 7] =
      [Action.send 8, Action.send 15, Action.send 14, Action.close] :=
  ⟨by decide, by decide, (Stage2_maps_by_remainder [-1, 4] [7] 5 (by decide)).2 (by decide),
    by decide⟩

/-- C1 as stated fails at `n = 2^62`: the remainder is 1 and `n × 2 = 2^63`,
    yet `Stage2` publishes `-2^63`. -/
theorem Stage2_product_overflows :
    inInt 4611686018427387904 ∧ intRem 4611686018427387904 3 = 1 ∧
    (4611686018427387904 : Int) * (1 + intRem 4611686018427387904 3) = 9223372036854775808 ∧
    Stage2 [4611686018427387904] = [Action.send (-9223372036854775808), Action.close] := by
  decide

/-- C2 fails at the single item `-1`: Go's remainder `-1 % 3` is `-1`, no
    `case` of the `switch` matches, and `Stage2` publishes nothing for it. -/
theorem Stage2_drops_negative_remainder :
    inInt (-1) ∧ intRem (-1) 3 = -1 ∧ Stage2 [-1] = [Action.close] ∧
    (received (Stage2 [-1])).length = 0 ∧ [(-1 : Int)].length = 1 := by
  decide

/-- C4 (amended): for every finite list of integers received by `Stage3`, it
    delivers exactly one value on the result channel: the sum of all received
    items, starting from zero, reduced to a signed 64-bit `int` (zero for the
    empty list); it is the exact sum whenever the exact sum fits a signed
    64-bit `int`. -/
theorem Stage3_delivers_wrapped_sum (results : List Int) :
    Stage3 results = [Action.send (wrapInt results.sum)] ∧
    (inInt results.sum → Stage3 results = [Action.send results.sum]) ∧
    Stage3 [] = [Action.send 0] := by
  have h1 := Stage3_eq results
  refine ⟨h1, fun hr => ?_, rfl⟩
  rw [h1, wrapInt_of_inInt hr]

/-- C4, on the items 1, 2, 3: one value, their sum 6. -/
theorem Stage3_delivers_wrapped_sum_witness :
    inInt ([1, 2, 3] : List Int).sum ∧
    Stage3 [1, 2, 3] = [Action.send ([1, 2, 3] : List Int).sum] :=
  ⟨by decide, (Stage3_delivers_wrapped_sum [1, 2, 3]).2.1 (by decide)⟩

/-- C4 as stated fails on the items `2^63 - 1, 1`: their sum is `2^63`, yet
    `Stage3` delivers `-2^63`. -/
theorem Stage3_sum_overflows :
    inInt 9223372036854775807 ∧ inInt 1 ∧
    ([9223372036854775807, 1] : List Int).sum = 9223372036854775808 ∧
    Stage3 [9223372036854775807, 1] = [Action.send (-9223372036854775808)] := by
  decide

/-- C6 (amended): with the bound 5 in place of 1000000000, `Stage1` emits
    exactly the values 1, 101, in that order, and then closes. -/
theorem Stage1With_five (fuel : Nat) (hfuel : 3 ≤ fuel) :
    Stage1With 5 fuel = some [Action.send 1, Action.send 101, Action.close] := by
  have hc : emitCount 5 = 2 := by decide
  have h := Stage1With_eq 5 fuel (by decide) (by rw [hc]; exact hfuel)
  rw [h, hc]
  decide

/-- C6, with fuel for exactly three loop tests. -/
theorem Stage1With_five_witness :
    3 ≤ 3 ∧ Stage1With 5 3 = some [Action.send 1, Action.send 101, Action.close] :=
  ⟨le_refl 3, Stage1With_five 3 (le_refl 3)⟩

/-- C6 as stated fails: with the bound 5, no run of `Stage1` emits 1, 2, 101. -/
theorem Stage1With_five_not_one_two :
    ¬ ∃ fuel jobs, Stage1With 5 fuel = some jobs ∧ received jobs = [1, 2, 101] := by
  rintro ⟨fuel, jobs, h, hr⟩
  have hj := Stage1With_unique 5 fuel jobs (by decide) h
  rw [hj, received_sends] at hr
  revert hr
  decide

/-- C5 (amended): with the production bound of one billion, `Stage1`
    terminates and the sequence it emits includes every integer from 1 up to
    the bound that leaves remainder 1 modulo 100, and no other integer from 1
    up to the bound. -/
theorem Stage1_emits_every_hundredth :
    ∃ jobs, (∀ fuel, 10000002 ≤ fuel → Stage1 fuel = some jobs) ∧
      ∀ v : Int, 1 ≤ v → v ≤ 1000000000 → (v ∈ received jobs ↔ v % 100 = 1) := by
  refine ⟨productionJobs, fun fuel hf => Stage1_eq fuel hf, ?_⟩
  intro v h1 h2
  unfold productionJobs
  rw [received_sends, mem_hundredsPlusOne_iff]
  constructor
  · rintro ⟨m, _, rfl⟩
    omega
  · intro hv
    refine ⟨(v / 100).toNat, ?_, ?_⟩
    · have : ((v / 100).toNat : Int) = v / 100 := Int.toNat_of_nonneg (by omega)
      omega
    · rw [Int.toNat_of_nonneg (by omega)]
      omega

/-- C5 as stated fails at the odd integer 3, which lies between 1 and the
    bound: `Stage1` terminates without ever emitting it. -/
theorem Stage1_skips_three :
    (3 : Int) % 2 = 1 ∧ (1 : Int) ≤ 3 ∧ (3 : Int) ≤ 1000000000 ∧
    ∃ jobs, (∀ fuel, 10000002 ≤ fuel → Stage1 fuel = some jobs) ∧
      (3 : Int) ∉ received jobs := by
  refine ⟨by decide, by decide, by decide, productionJobs, fun fuel hf => Stage1_eq fuel hf, ?_⟩
  unfold productionJobs
  rw [received_sends, mem_hundredsPlusOne_iff]
  rintro ⟨m, _, hm⟩
  omega

/-- C8: the history of `jobs` written by `Stage1` (production bound) and the
    history of `results` written by `Stage2`, for every finite list of items
    it receives, contain exactly one `close`, it is the last action, and
    nothing follows it. -/
theorem stages_close_once_at_end :
    (∃ jobs, (∀ fuel, 10000002 ≤ fuel → Stage1 fuel = some jobs) ∧ closedOnceAtEnd jobs) ∧
    ∀ input : List Int, closedOnceAtEnd (Stage2 input) := by
  refine ⟨⟨productionJobs, fun fuel hf => Stage1_eq fuel hf, closedOnceAtEnd_sends _⟩, ?_⟩
  intro input
  obtain ⟨vs, hvs⟩ := Stage2_shape input
  rw [hvs]
  exact closedOnceAtEnd_sends vs

/-- C9: with the bound 1000000000, `Stage1` terminates having emitted exactly
    the values `100·m + 1` for `m = 0, …, 10000000`, in increasing order,
    10000001 items in total; every emitted value is odd, 2 and 3 are never
    emitted, and the last emitted value, 1000000001, exceeds the bound. -/
theorem Stage1_emits_hundreds_plus_one :
    ∃ jobs, (∀ fuel, 10000002 ≤ fuel → Stage1 fuel = some jobs) ∧
      received jobs = (List.range 10000001).map (fun (m : Nat) => 100 * (m : Int) + 1) ∧
      (received jobs).length = 10000001 ∧
      (received jobs).Pairwise (· < ·) ∧
      (∀ v ∈ received jobs, v % 2 = 1) ∧
      (2 : Int) ∉ received jobs ∧ (3 : Int) ∉ received jobs ∧
      (received jobs).getLast? = some 1000000001 ∧ (1000000000 : Int) < 1000000001 := by
  have hr : received productionJobs = hundredsPlusOne 10000001 := received_sends _
  refine ⟨productionJobs, fun fuel hf => Stage1_eq fuel hf, ?_, ?_, ?_, ?_, ?_, ?_, ?_, by decide⟩
  · rw [hr]; rfl
  · rw [hr, length_hundredsPlusOne]
  · rw [hr]; exact pairwise_hundredsPlusOne _
  · rw [hr]
    intro v hv
    obtain ⟨m, _, rfl⟩ := mem_hundredsPlusOne hv
    omega
  · rw [hr, mem_hundredsPlusOne_iff]
    rintro ⟨m, _, hm⟩
    omega
  · rw [hr, mem_hundredsPlusOne_iff]
    rintro ⟨m, _, hm⟩
    omega
  · rw [hr, getLast?_hundredsPlusOne 10000000]
    norm_num

/-- C10: the total that `main` prints is 10000001686666703; it is the sum,
    over unbounded integers, of `v × (1 + v % 3)` over every value `v` that
    `Stage1` emits; this is less than `2^63`, no product and no partial sum
    leaves the range of a signed 64-bit `int`, so the program computes that
    same number. -/
theorem main_prints_total (fuel : Nat) (hfuel : 10000002 ≤ fuel) :
    main fuel = some 10000001686666703 ∧
    (∃ jobs, Stage1 fuel = some jobs ∧
      ((received jobs).map mappedSpec).sum = 10000001686666703 ∧
      (∀ v ∈ received jobs, inInt (mappedSpec v)) ∧
      ∀ n, inInt (((received jobs).map mappedSpec).take n).sum) ∧
    (10000001686666703 : Int) < 2 ^ 63 := by
  have hS := Stage1_eq fuel hfuel
  have hr : received productionJobs = hundredsPlusOne 10000001 := received_sends _
  have hv : ∀ v ∈ hundredsPlusOne 10000001, 0 ≤ v ∧ 3 * v ≤ maxInt := by
    intro v hv
    obtain ⟨m, hm, rfl⟩ := mem_hundredsPlusOne hv
    unfold maxInt
    omega
  have hsum : ((hundredsPlusOne 10000001).map mappedSpec).sum = 10000001686666703 :=
    mappedSum_production
  have hnn : ∀ x ∈ (hundredsPlusOne 10000001).map mappedSpec, 0 ≤ x := by
    intro x hx
    obtain ⟨v, hv1, rfl⟩ := List.mem_map.mp hx
    exact (mappedSpec_bounds (hv v hv1).1).1
  refine ⟨?_, ⟨productionJobs, hS, ?_, ?_, ?_⟩, by norm_num⟩
  · unfold main mainWith
    unfold Stage1 at hS
    rw [hS]
    show (received (Stage3 (received (Stage2 (received productionJobs))))).head? = _
    rw [hr, Stage2_exact _ hv, Stage3_eq, hsum]
    decide
  · rw [hr]; exact hsum
  · rw [hr]
    intro v hv1
    have hb := mappedSpec_bounds (hv v hv1).1
    have hm := (hv v hv1).2
    unfold inInt minInt
    unfold maxInt at hm ⊢
    constructor <;> linarith [hb.1, hb.2]
  · rw [hr]
    intro n
    have hb := sum_take_bounds _ hnn n
    rw [hsum] at hb
    unfold inInt minInt maxInt
    constructor <;> linarith [hb.1, hb.2]

/-- C10, with fuel for exactly the 10000002 loop tests of `Stage1`. -/
theorem main_prints_total_witness :
    10000002 ≤ 10000002 ∧ main 10000002 = some 10000001686666703 :=
  ⟨le_refl _, (main_prints_total 10000002 (le_refl _)).1⟩

/-- C7 (amended): for every bound `L ≤ 2^63 - 7` in place of 1000000000,
    `Stage1` terminates after `emitCount L` emissions, the emitted loop index
    strictly increasing from one emission to the next; consequently `Stage2`
    and `Stage3` finish and exactly one total is delivered, which `main`
    prints. -/
theorem pipeline_terminates (L : Int) (hL : L ≤ maxInt - 6) :
    ∃ jobs total,
      (∀ fuel, emitCount L + 1 ≤ fuel →
        Stage1With L fuel = some jobs ∧ mainWith L fuel = some total) ∧
      (received jobs).length = emitCount L ∧
      (received jobs).Pairwise (· < ·) ∧
      closedOnceAtEnd (Stage2 (received jobs)) ∧
      Stage3 (received (Stage2 (received jobs))) = [Action.send total] := by
  refine ⟨(hundredsPlusOne (emitCount L)).map Action.send ++ [Action.close],
    wrapInt (received (Stage2 (hundredsPlusOne (emitCount L)))).sum, ?_, ?_, ?_, ?_, ?_⟩
  · intro fuel hf
    have h := Stage1With_eq L fuel hL hf
    refine ⟨h, ?_⟩
    unfold mainWith
    rw [h]
    show (received (Stage3 _)).head? = _
    rw [received_sends, Stage3_eq]
    rfl
  · rw [received_sends, length_hundredsPlusOne]
  · rw [received_sends]; exact pairwise_hundredsPlusOne _
  · obtain ⟨vs, hvs⟩ := Stage2_shape (received
      ((hundredsPlusOne (emitCount L)).map Action.send ++ [Action.close]))
    rw [hvs]
    exact closedOnceAtEnd_sends vs
  · rw [received_sends, Stage3_eq]

/-- C7, at the bound 5. -/
theorem pipeline_terminates_witness :
    (5 : Int) ≤ maxInt - 6 ∧
    ∃ jobs total,
      (∀ fuel, emitCount 5 + 1 ≤ fuel →
        Stage1With 5 fuel = some jobs ∧ mainWith 5 fuel = some total) ∧
      (received jobs).length = emitCount 5 ∧
      (received jobs).Pairwise (· < ·) ∧
      closedOnceAtEnd (Stage2 (received jobs)) ∧
      Stage3 (received (Stage2 (received jobs))) = [Action.send total] :=
  ⟨by decide, pipeline_terminates 5 (by decide)⟩

/-- C7 as stated fails at the finite bound `2^63 - 1`, the largest `int`: the
    condition `i <= L` never fails and no run of `Stage1` finishes. -/
theorem Stage1With_maxInt_never_stops :
    inInt 9223372036854775807 ∧
    ¬ ∃ fuel jobs, Stage1With 9223372036854775807 fuel = some jobs :=
  ⟨by decide, Stage1With_never 9223372036854775807 (by decide)⟩

/-- C3 (amended): for every bound `L ≤ 2^63 - 7` in place of 1000000000,
    `Stage1` terminates and every raw value it emits is transformed exactly
    once by `Stage2`: the published list has the length of the emitted list
    and its k-th element is the k-th raw value `v` mapped to `v × (1 + v % 3)`
    reduced to a signed 64-bit `int`, which is `v × (1 + v % 3)` itself when
    `L ≤ 3·10^18`; no raw value is dropped or duplicated. -/
theorem Stage2_transforms_each_once (L : Int) (hL : L ≤ maxInt - 6) :
    ∃ jobs, (∀ fuel, emitCount L + 1 ≤ fuel → Stage1With L fuel = some jobs) ∧
      (received (Stage2 (received jobs))).length = (received jobs).length ∧
      received (Stage2 (received jobs)) =
        (received jobs).map (fun v => wrapInt (mappedSpec v)) ∧
      (L ≤ 3000000000000000000 →
        received (Stage2 (received jobs)) = (received jobs).map mappedSpec) := by
  have hnn : ∀ v ∈ hundredsPlusOne (emitCount L), 0 ≤ v :=
    fun v hv => (hundredsPlusOne_emit_bounds L v hv).1
  have hmap := Stage2_of_nonneg _ hnn
  refine ⟨(hundredsPlusOne (emitCount L)).map Action.send ++ [Action.close],
    fun fuel hf => Stage1With_eq L fuel hL hf, ?_, ?_, ?_⟩
  · rw [received_sends, hmap, received_sends, List.length_map]
  · rw [received_sends, hmap, received_sends]
  · intro hL3
    rw [received_sends]
    apply Stage2_exact
    intro v hv
    have hb := hundredsPlusOne_emit_bounds L v hv
    unfold maxInt
    omega

/-- C3, at the bound 5. -/
theorem Stage2_transforms_each_once_witness :
    (5 : Int) ≤ maxInt - 6 ∧
    ∃ jobs, (∀ fuel, emitCount 5 + 1 ≤ fuel → Stage1With 5 fuel = some jobs) ∧
      (received (Stage2 (received jobs))).length = (received jobs).length ∧
      received (Stage2 (received jobs)) =
        (received jobs).map (fun v => wrapInt (mappedSpec v)) ∧
      ((5 : Int) ≤ 3000000000000000000 →
        received (Stage2 (received jobs)) = (received jobs).map mappedSpec) :=
  ⟨by decide, Stage2_transforms_each_once 5 (by decide)⟩

/-- C3 as stated fails at the bound `2^63 - 7`: `Stage1` terminates, its last
    raw value is `v = 2^63 - 7` with `v × (1 + v % 3) = 2^64 - 14`, yet the last
    value `Stage2` publishes is `-14`. The claim also fails at the bound
    `2^63 - 2`, for which no run of `Stage1` finishes. -/
theorem Stage2_last_product_overflows :
    (∃ jobs, (∀ fuel, 92233720368547760 ≤ fuel →
        Stage1With 9223372036854775801 fuel = some jobs) ∧
      (received jobs).getLast? = some 9223372036854775801 ∧
      mappedSpec 9223372036854775801 = 18446744073709551602 ∧
      (received (Stage2 (received jobs))).getLast? = some (-14)) ∧
    ¬ ∃ fuel jobs, Stage1With 9223372036854775806 fuel = some jobs := by
  have hc : emitCount 9223372036854775801 = 92233720368547758 + 1 := by
    unfold emitCount
    rw [if_pos (by decide)]
    have h : ((9223372036854775801 : Int) + 98) / 100 = ((92233720368547758 : Nat) : Int) := by
      norm_num
    rw [h, Int.toNat_ofNat]
  have hnn : ∀ v ∈ hundredsPlusOne (emitCount 9223372036854775801), 0 ≤ v :=
    fun v hv => (hundredsPlusOne_emit_bounds _ v hv).1
  have hlast : (hundredsPlusOne (emitCount 9223372036854775801)).getLast? =
      some 9223372036854775801 := by
    rw [hc, getLast?_hundredsPlusOne]
    norm_num
  refine ⟨⟨(hundredsPlusOne (emitCount 9223372036854775801)).map Action.send ++ [Action.close],
    ?_, ?_, by decide, ?_⟩, Stage1With_never _ (by decide)⟩
  · intro fuel hf
    exact Stage1With_eq _ fuel (by decide) (by rw [hc]; omega)
  · rw [received_sends, hlast]
  · rw [received_sends, Stage2_of_nonneg _ hnn, received_sends, List.getLast?_map, hlast]
    decide

end Pipeline
